import Mathlib

/-!
# Verification of the `prometrics` metrics library

A shallow embedding of the Rust sources of `prometrics` (a Prometheus client
library) together with proofs about them.

Modelling conventions, used throughout:

* Machine integers (`u64`, `usize`) are modelled as `Nat` with explicit
  `% 2^64` where the source relies on wrap-around (`fetch_add`).
* `f64` is modelled by the inductive type `F64`: finite values are exact
  rationals, plus the special values `nan`, `inf` and `neginf`.  Rounding of
  finite-value arithmetic is not modelled; NaN propagation, the behaviour of
  comparisons on NaN, the (saturating) `as u64` cast, and the `u64 → f64`
  cast in `Counter::value` (round to nearest, ties to even — see `roundU64`)
  are modelled faithfully, since those are what the verified claims depend on.
* Code that can panic (out-of-range indexing, failed assertions) is modelled
  with `Option`: `none` is a panic.
* Fallible functions return a value paired with `Option ErrorKind`, or an
  `Except`, mirroring the crate's `Result<_, Error>`.
* Rust's stable `sort`/`sort_by` is modelled by `List.insertionSort`, which is
  also stable; a stable sort's output is uniquely determined by the comparator,
  so the two agree whenever the comparator is total and transitive (which it is
  on the values actually sorted by the source: NaN values are filtered out or
  rejected before every sort).
-/

namespace Prometrics

/-- The two error kinds of `src/error.rs`. -/
inductive ErrorKind where
  | InvalidInput
  | Other
deriving DecidableEq

/-- Model of `f64`: exact rationals for finite values plus the special values.
Rounding of finite arithmetic is not modelled (see the file header). -/
inductive F64 where
  | nan
  | inf
  | neginf
  | fin (q : ℚ)
deriving DecidableEq

namespace F64

/-- The `f64::is_nan`. -/
def isNan : F64 → Bool
  | nan => true
  | _ => false

/-- The `PartialOrd::partial_cmp` on `f64`: `none` exactly when a NaN is involved. -/
def cmp : F64 → F64 → Option Ordering
  | nan, _ => none
  | _, nan => none
  | neginf, neginf => some .eq
  | neginf, _ => some .lt
  | _, neginf => some .gt
  | inf, inf => some .eq
  | fin _, inf => some .lt
  | inf, fin _ => some .gt
  | fin p, fin q => some (if p < q then .lt else if q < p then .gt else .eq)

/-- The `a >= b` on `f64` (false whenever a NaN is involved, like Rust's `>=`). -/
def geP (a b : F64) : Bool :=
  match cmp a b with
  | some .gt => true
  | some .eq => true
  | _ => false

/-- The `a < b` on `f64` (false whenever a NaN is involved, like Rust's `<`). -/
def ltP (a b : F64) : Bool :=
  match cmp a b with
  | some .lt => true
  | _ => false

/-- The `f64` addition.  Finite additions are exact (rational); the special-value
and NaN-propagation rules are those of IEEE 754. -/
def add : F64 → F64 → F64
  | nan, _ => nan
  | _, nan => nan
  | inf, neginf => nan
  | neginf, inf => nan
  | inf, _ => inf
  | _, inf => inf
  | neginf, _ => neginf
  | _, neginf => neginf
  | fin p, fin q => fin (p + q)

/-- The `f64::floor`. -/
def floor : F64 → F64
  | nan => nan
  | inf => inf
  | neginf => neginf
  | fin q => fin ((⌊q⌋ : ℤ) : ℚ)

/-- The `f64::ceil`. -/
def ceil : F64 → F64
  | nan => nan
  | inf => inf
  | neginf => neginf
  | fin q => fin ((⌈q⌉ : ℤ) : ℚ)

/-- Rust's `as u64` cast on `f64`: truncation towards zero, saturating at the
ends of the `u64` range, `NaN` mapped to `0`. -/
def toU64 : F64 → Nat
  | nan => 0
  | inf => 2 ^ 64 - 1
  | neginf => 0
  | fin q =>
    if q < 0 then 0
    else if (2 ^ 64 : ℤ) ≤ ⌊q⌋ then 2 ^ 64 - 1
    else (⌊q⌋ : ℤ).toNat

/-- Total comparator used to model `partial_cmp(..).expect(..)` inside sorts
and binary searches.  The source only ever evaluates that comparator on
non-NaN values (it filters NaN out, or rejects/asserts it away, first); on
non-NaN values this total order agrees with `cmp` (see `leb_eq_cmp`). -/
def leb : F64 → F64 → Bool
  | nan, _ => true
  | _, nan => false
  | neginf, _ => true
  | _, neginf => false
  | fin p, fin q => decide (p ≤ q)
  | fin _, inf => true
  | inf, fin _ => false
  | inf, inf => true

/-- The propositional version of `leb`, used as the sort relation. -/
def Le (a b : F64) : Prop := leb a b = true

instance : DecidableRel Le := fun a b => by unfold Le; infer_instance

instance : IsTotal F64 Le where
  total a b := by
    cases a <;> cases b <;> simp [Le, leb] <;> exact le_total _ _

instance : IsTrans F64 Le where
  trans a b c hab hbc := by
    cases a <;> cases b <;> cases c <;> simp_all [Le, leb] <;> exact le_trans hab hbc

instance : IsAntisymm F64 Le where
  antisymm a b hab hba := by
    cases a <;> cases b <;> simp_all [Le, leb]
    exact le_antisymm hab hba

/-- On non-NaN arguments the total sort comparator `leb` agrees with the
partial comparison `cmp` of the source. -/
theorem leb_eq_cmp (a b : F64) (ha : a.isNan = false) (hb : b.isNan = false) :
    leb a b = ((cmp a b = some .lt) || (cmp a b = some .eq)) := by
  cases a with
  | nan => simp [isNan] at ha
  | inf =>
    cases b with
    | nan => simp [isNan] at hb
    | inf => simp [leb, cmp]
    | neginf => simp [leb, cmp]
    | fin q => simp [leb, cmp]
  | neginf =>
    cases b with
    | nan => simp [isNan] at hb
    | inf => simp [leb, cmp]
    | neginf => simp [leb, cmp]
    | fin q => simp [leb, cmp]
  | fin p =>
    cases b with
    | nan => simp [isNan] at hb
    | inf => simp [leb, cmp]
    | neginf => simp [leb, cmp]
    | fin q =>
      rcases lt_trichotomy p q with h | h | h
      · simp [leb, cmp, h, h.le]
      · subst h; simp [leb, cmp, lt_irrefl]
      · simp [leb, cmp, h, not_lt_of_gt h, h.not_le]

end F64

/-! ## Counter (`src/metrics/counter.rs`)

The private `Value` struct holds a float accumulator and a `u64` accumulator;
`value()` returns their sum (`self.f64.get() + self.u64.get() as f64`).  The
`u64 → f64` read conversion rounds to nearest, ties to even; it is modelled
faithfully by `roundU64` below. -/

/-- The number of low-order bits Rust's `u64 as f64` cast cannot keep for a
`u64` value `n < 2 ^ 64`: an `f64` significand holds 53 bits, so a value in
the range `2 ^ (53 + k) ≤ n < 2 ^ (54 + k)` loses its lowest `k + 1` bits to
rounding. -/
def u64CastExcess (n : Nat) : Nat :=
  if n < 2 ^ 53 then 0
  else if n < 2 ^ 54 then 1
  else if n < 2 ^ 55 then 2
  else if n < 2 ^ 56 then 3
  else if n < 2 ^ 57 then 4
  else if n < 2 ^ 58 then 5
  else if n < 2 ^ 59 then 6
  else if n < 2 ^ 60 then 7
  else if n < 2 ^ 61 then 8
  else if n < 2 ^ 62 then 9
  else if n < 2 ^ 63 then 10
  else 11

/-- Rust's `u64 as f64` cast for `n < 2 ^ 64` (IEEE 754 integer-to-float
conversion): round to nearest, ties to even, on the lost low bits.  Exact for
`n ≤ 2 ^ 53`; e.g. `2 ^ 53 + 1` rounds down to `2 ^ 53` and
`2 ^ 64 - 1 = u64::MAX` rounds up to `2 ^ 64`. -/
def roundU64 (n : Nat) : Nat :=
  let k := u64CastExcess n
  let q := n / 2 ^ k
  let r := n % 2 ^ k
  if k = 0 then n
  else if r < 2 ^ (k - 1) then q * 2 ^ k
  else if 2 ^ (k - 1) < r then (q + 1) * 2 ^ k
  else if q % 2 = 0 then q * 2 ^ k
  else (q + 1) * 2 ^ k

/-- The `u64 as f64` cast is exact on values up to `2 ^ 53`. -/
theorem roundU64_of_le (n : Nat) (h : n ≤ 2 ^ 53) : roundU64 n = n := by
  rcases Nat.lt_or_eq_of_le h with h' | h'
  · have hk : u64CastExcess n = 0 := by
      unfold u64CastExcess
      rw [if_pos h']
    simp [roundU64, hk]
  · subst h'
    decide

/-- The `Value` struct of `counter.rs`: a float accumulator and an integer
accumulator. -/
structure Value where
  f64 : F64
  u64 : Nat
deriving DecidableEq

namespace Value

/-- The `Value::new`. -/
def new : Value := ⟨F64.fin 0, 0⟩

/-- The `Value::get`: `self.f64.get() + self.u64.get() as f64`; the `as f64`
cast rounds to nearest, ties to even (`roundU64`). -/
def get (v : Value) : F64 := F64.add v.f64 (F64.fin ((roundU64 v.u64 : ℕ) : ℚ))

/-- The `Value::increment`: `self.u64.inc()`, a wrapping `fetch_add(1)`. -/
def increment (v : Value) : Value := { v with u64 := (v.u64 + 1) % 2 ^ 64 }

/-- The `Value::add(count: f64)`: casts `count.floor()` and `count.ceil()` to
`u64`; if the two casts agree the integer accumulator receives the cast value,
otherwise the float accumulator receives `count`. -/
def add (v : Value) (count : F64) : Value :=
  let floor := (F64.floor count).toU64
  let ceil := (F64.ceil count).toU64
  if floor = ceil then { v with u64 := (v.u64 + floor) % 2 ^ 64 }
  else { v with f64 := F64.add v.f64 count }

/-- The `Value::add_u64(count: u64)`: a wrapping `fetch_add(count)`. -/
def addU64 (v : Value) (count : Nat) : Value :=
  { v with u64 := (v.u64 + count) % 2 ^ 64 }

end Value

namespace Counter

/-- The `Counter::add`: `track_assert!(count >= 0.0, ErrorKind::InvalidInput)`,
then `self.0.value.add(count)`.  The pair's second component is the error the
caller receives (`none` = `Ok(())`); on error the value is untouched. -/
def add (v : Value) (count : F64) : Value × Option ErrorKind :=
  if F64.geP count (F64.fin 0) then (Value.add v count, none)
  else (v, some ErrorKind.InvalidInput)

end Counter

/-- Claim C4, counterexample: `Counter::add(f64::NAN)` returns an
`InvalidInput` error even though `NAN < 0.0` is false, so "returns an
`InvalidInput` error exactly when `count < 0`" fails at `count = NaN`
(`track_assert!(count >= 0.0, ..)` fails for NaN because `NaN >= 0.0` is
false). -/
theorem counter_add_nan_counterexample :
    Counter.add Value.new F64.nan = (Value.new, some ErrorKind.InvalidInput) ∧
    F64.ltP F64.nan (F64.fin 0) = false := by
  constructor
  · rfl
  · rfl

/-- Claim C4, amended: `Counter::add(count)` returns an `InvalidInput` error
exactly when `count >= 0.0` is false — that is, when `count` is negative or
NaN; whenever it errors the stored value is unchanged, and for every
`count >= 0.0` the call succeeds and performs `Value::add`. -/
theorem counter_add_error_iff (v : Value) (c : F64) :
    ((Counter.add v c).2 = some ErrorKind.InvalidInput ↔ F64.geP c (F64.fin 0) = false) ∧
    ((Counter.add v c).2 ≠ none → (Counter.add v c).1 = v) ∧
    (F64.geP c (F64.fin 0) = true →
      (Counter.add v c).2 = none ∧ (Counter.add v c).1 = Value.add v c) := by
  unfold Counter.add
  cases h : F64.geP c (F64.fin 0) <;> simp [h]

/-- Claim C4, witness: the amended theorem applied at the concrete input
`count = -1` on a fresh counter value. -/
theorem counter_add_error_iff_witness :
    (Counter.add Value.new (F64.fin (-1))).2 = some ErrorKind.InvalidInput ∧
    (Counter.add Value.new (F64.fin (-1))).1 = Value.new := by
  have h := counter_add_error_iff Value.new (F64.fin (-1))
  exact ⟨h.1.mpr (by decide), h.2.1 (by rw [h.1.mpr (by decide)]; simp)⟩

/-- An operation on a counter that uses only the integer fast path:
`Counter::increment` or `Counter::add_u64`. -/
inductive CounterOp where
  | inc
  | addU64 (n : Nat)
deriving DecidableEq

/-- Apply one integer-path operation to the stored `Value`. -/
def CounterOp.apply (v : Value) : CounterOp → Value
  | .inc => v.increment
  | .addU64 n => v.addU64 n

/-- The amount an integer-path operation adds. -/
def CounterOp.total : CounterOp → Nat
  | .inc => 1
  | .addU64 n => n

/-- The running `u64` accumulator after a sequence of integer-path operations,
starting from `u`, is exactly `u` plus the sum of the operation amounts, and
the float accumulator never moves — provided the total stays below `2^64`
(no `fetch_add` wrap-around). -/
theorem foldl_counterOp (ops : List CounterOp) :
    ∀ u : Nat, u + (ops.map CounterOp.total).sum < 2 ^ 64 →
      ops.foldl CounterOp.apply ⟨F64.fin 0, u⟩ =
        ⟨F64.fin 0, u + (ops.map CounterOp.total).sum⟩ := by
  induction ops with
  | nil => intro u _; simp
  | cons op rest ih =>
    intro u h
    have hstep : CounterOp.apply ⟨F64.fin 0, u⟩ op =
        ⟨F64.fin 0, u + CounterOp.total op⟩ := by
      cases op with
      | inc =>
        have hu : u + 1 < 2 ^ 64 := by
          simp only [List.map_cons, List.sum_cons, CounterOp.total] at h
          omega
        simp only [CounterOp.apply, Value.increment, CounterOp.total]
        congr 1
        omega
      | addU64 n =>
        have hu : u + n < 2 ^ 64 := by
          simp only [List.map_cons, List.sum_cons, CounterOp.total] at h
          omega
        simp only [CounterOp.apply, Value.addU64, CounterOp.total]
        congr 1
        omega
    have h' : (u + CounterOp.total op) + (rest.map CounterOp.total).sum < 2 ^ 64 := by
      simp only [List.map_cons, List.sum_cons] at h
      omega
    calc (op :: rest).foldl CounterOp.apply ⟨F64.fin 0, u⟩
        = rest.foldl CounterOp.apply (CounterOp.apply ⟨F64.fin 0, u⟩ op) := rfl
      _ = rest.foldl CounterOp.apply ⟨F64.fin 0, u + CounterOp.total op⟩ := by rw [hstep]
      _ = ⟨F64.fin 0, (u + CounterOp.total op) + (rest.map CounterOp.total).sum⟩ := ih _ h'
      _ = ⟨F64.fin 0, u + ((op :: rest).map CounterOp.total).sum⟩ := by
          simp only [List.map_cons, List.sum_cons]
          congr 1
          omega

/-- Claim C8, counterexample: the claim quantifies over all `N` representable
in `u64`, but `value()` reads the integer accumulator back through the lossy
`u64 as f64` cast.  For `N = 2 ^ 53 + 1` (a single `add_u64(2 ^ 53 + 1)`
call, well inside `u64` range) the accumulator holds exactly `N`, yet
`value()` returns `2 ^ 53 ≠ N`: "value() equals N exactly" fails. -/
theorem counter_integer_exactness_counterexample :
    ([CounterOp.addU64 (2 ^ 53 + 1)].map CounterOp.total).sum = 2 ^ 53 + 1 ∧
    [CounterOp.addU64 (2 ^ 53 + 1)].foldl CounterOp.apply Value.new =
      ⟨F64.fin 0, 2 ^ 53 + 1⟩ ∧
    ([CounterOp.addU64 (2 ^ 53 + 1)].foldl CounterOp.apply Value.new).get =
      F64.fin ((2 : ℚ) ^ 53) ∧
    F64.fin ((2 : ℚ) ^ 53) ≠ F64.fin ((2 ^ 53 + 1 : ℕ) : ℚ) := by
  have hstate : [CounterOp.addU64 (2 ^ 53 + 1)].foldl CounterOp.apply Value.new =
      ⟨F64.fin 0, 2 ^ 53 + 1⟩ := by
    show Value.addU64 ⟨F64.fin 0, 0⟩ (2 ^ 53 + 1) = ⟨F64.fin 0, 2 ^ 53 + 1⟩
    simp only [Value.addU64]
    congr 1
  have hr : roundU64 (2 ^ 53 + 1) = 2 ^ 53 := by decide
  refine ⟨by decide, hstate, ?_, ?_⟩
  · rw [hstate]
    show F64.add (F64.fin 0) (F64.fin ((roundU64 (2 ^ 53 + 1) : ℕ) : ℚ)) =
      F64.fin ((2 : ℚ) ^ 53)
    rw [hr]
    simp only [F64.add, F64.fin.injEq]
    push_cast
    ring
  · simp only [ne_eq, F64.fin.injEq]
    push_cast
    norm_num

/-- Claim C8, amended: a fresh counter mutated only by `increment()` and
`add_u64` calls whose amounts total `N < 2^64` holds exactly `N` in the
integer accumulator and its float accumulator stays `0`; `value()` returns
the `u64 as f64` rounding (`roundU64`) of `N` — round to nearest, ties to
even — which equals `N` exactly whenever `N ≤ 2 ^ 53` (no float drift in
that range), but not for every `u64`-representable `N`. -/
theorem counter_integer_exactness (ops : List CounterOp)
    (hN : (ops.map CounterOp.total).sum < 2 ^ 64) :
    ops.foldl CounterOp.apply Value.new =
      ⟨F64.fin 0, (ops.map CounterOp.total).sum⟩ ∧
    (ops.foldl CounterOp.apply Value.new).get =
      F64.fin ((roundU64 (ops.map CounterOp.total).sum : ℕ) : ℚ) ∧
    ((ops.map CounterOp.total).sum ≤ 2 ^ 53 →
      (ops.foldl CounterOp.apply Value.new).get =
        F64.fin (((ops.map CounterOp.total).sum : ℕ) : ℚ)) := by
  have h := foldl_counterOp ops 0 (by omega)
  have h0 : (Value.new : Value) = ⟨F64.fin 0, 0⟩ := rfl
  refine ⟨by rw [h0, h]; simp, ?_, ?_⟩
  · rw [h0, h]
    simp [Value.get, F64.add]
  · intro hle
    rw [h0, h]
    simp [Value.get, F64.add, roundU64_of_le _ hle]

/-- Claim C8, witness: `increment()` followed by `add_u64(2)` on a fresh
counter yields exactly `3`, in the accumulator and through `value()`. -/
theorem counter_integer_exactness_witness :
    [CounterOp.inc, CounterOp.addU64 2].foldl CounterOp.apply Value.new =
      ⟨F64.fin 0, 3⟩ ∧
    ([CounterOp.inc, CounterOp.addU64 2].foldl CounterOp.apply Value.new).get =
      F64.fin 3 := by
  have hsum : ([CounterOp.inc, CounterOp.addU64 2].map CounterOp.total).sum = 3 := by
    decide
  obtain ⟨h1, -, h3⟩ :=
    counter_integer_exactness [CounterOp.inc, CounterOp.addU64 2] (by decide)
  rw [hsum] at h1 h3
  exact ⟨h1, by simpa using h3 (by norm_num)⟩

/-- The saturating `as u64` cast evaluated on an integer-valued rational. -/
theorem toU64_fin_int (n : ℤ) :
    F64.toU64 (F64.fin ((n : ℤ) : ℚ)) =
      if n < 0 then 0 else if (2 ^ 64 : ℤ) ≤ n then 2 ^ 64 - 1 else n.toNat := by
  simp only [F64.toU64, Int.floor_intCast, Int.cast_lt_zero]

/-- Helper: `Counter::add` on a fresh counter at an integral rational
`count`.  For `count ≥ 2 ^ 64` both the `floor` and `ceil` casts saturate to
`u64::MAX = 2 ^ 64 - 1`, which lands in the integer accumulator; for
`0 ≤ count < 2 ^ 64` the casts are exact and the accumulator receives
exactly `count`. -/
theorem counterAdd_int_eval (q : ℚ) (hden : q.den = 1) :
    ((2 ^ 64 : ℚ) ≤ q →
      Counter.add Value.new (F64.fin q) = (⟨F64.fin 0, 2 ^ 64 - 1⟩, none) ∧
      ((2 ^ 64 - 1 : ℚ) < q)) ∧
    (0 ≤ q → q < (2 ^ 64 : ℚ) →
      Counter.add Value.new (F64.fin q) = (⟨F64.fin 0, q.num.toNat⟩, none) ∧
      ((q.num.toNat : ℚ) = q)) := by
  have hq : (q.num : ℚ) = q := by
    conv_rhs => rw [← Rat.num_div_den q]
    rw [hden]
    simp
  have hfloor : (⌊q⌋ : ℤ) = q.num := by
    conv_lhs => rw [← hq]
    exact Int.floor_intCast q.num
  have hceil : (⌈q⌉ : ℤ) = q.num := by
    conv_lhs => rw [← hq]
    exact Int.ceil_intCast q.num
  constructor
  · intro hbig
    have hnum : (2 ^ 64 : ℤ) ≤ q.num := by
      have h1 : ((2 ^ 64 : ℤ) : ℚ) ≤ (q.num : ℚ) := by rw [hq]; push_cast; exact hbig
      exact_mod_cast h1
    have hpos : (0 : ℚ) < q := lt_of_lt_of_le (by norm_num) hbig
    have hge : F64.geP (F64.fin q) (F64.fin 0) = true := by
      simp [F64.geP, F64.cmp, not_lt_of_gt hpos, hpos]
    have hfl : (F64.floor (F64.fin q)).toU64 = 2 ^ 64 - 1 := by
      rw [show F64.floor (F64.fin q) = F64.fin ((q.num : ℤ) : ℚ) by
        simp [F64.floor, hfloor]]
      rw [toU64_fin_int, if_neg (by omega), if_pos hnum]
    have hcl : (F64.ceil (F64.fin q)).toU64 = 2 ^ 64 - 1 := by
      rw [show F64.ceil (F64.fin q) = F64.fin ((q.num : ℤ) : ℚ) by
        simp [F64.ceil, hceil]]
      rw [toU64_fin_int, if_neg (by omega), if_pos hnum]
    refine ⟨?_, by linarith⟩
    simp [Counter.add, hge, Value.add, hfl, hcl, Value.new,
      Nat.mod_eq_of_lt (by omega : 2 ^ 64 - 1 < 2 ^ 64)]
  · intro hge0 hsmall
    have hnum0 : (0 : ℤ) ≤ q.num := by
      have h1 : ((0 : ℤ) : ℚ) ≤ (q.num : ℚ) := by rw [hq]; exact_mod_cast hge0
      exact_mod_cast h1
    have hnumsmall : q.num < 2 ^ 64 := by
      have h1 : (q.num : ℚ) < ((2 ^ 64 : ℤ) : ℚ) := by rw [hq]; push_cast; exact hsmall
      exact_mod_cast h1
    have hgep : F64.geP (F64.fin q) (F64.fin 0) = true := by
      rcases lt_or_eq_of_le hge0 with h | h
      · simp [F64.geP, F64.cmp, not_lt_of_gt h, h]
      · simp [F64.geP, F64.cmp, ← h]
    have hfl : (F64.floor (F64.fin q)).toU64 = q.num.toNat := by
      rw [show F64.floor (F64.fin q) = F64.fin ((q.num : ℤ) : ℚ) by
        simp [F64.floor, hfloor]]
      rw [toU64_fin_int, if_neg (by omega), if_neg (by omega)]
    have hcl : (F64.ceil (F64.fin q)).toU64 = q.num.toNat := by
      rw [show F64.ceil (F64.fin q) = F64.fin ((q.num : ℤ) : ℚ) by
        simp [F64.ceil, hceil]]
      rw [toU64_fin_int, if_neg (by omega), if_neg (by omega)]
    have hcast : ((q.num.toNat : ℕ) : ℚ) = q := by
      rw [show ((q.num.toNat : ℕ) : ℚ) = ((q.num : ℤ) : ℚ) from by
        exact_mod_cast Int.toNat_of_nonneg hnum0]
      exact hq
    refine ⟨?_, hcast⟩
    simp [Counter.add, hgep, Value.add, hfl, hcl, Value.new,
      Nat.mod_eq_of_lt (by omega : q.num.toNat < 2 ^ 64)]
    omega

/-- Claim C10, counterexample: the claim's "value() increases by less than
count" fails at `count = 2 ^ 64`.  A fresh counter has `value() = 0`; after
`add(2 ^ 64)` the integer accumulator holds the saturated `u64::MAX =
2 ^ 64 - 1`, but `value()` reads it back through the `u64 as f64` cast,
which rounds `2 ^ 64 - 1` up to exactly `2 ^ 64` — so `value()` increases by
exactly `count`, not by less. -/
theorem counter_add_saturates_counterexample :
    Value.new.get = F64.fin 0 ∧
    (Counter.add Value.new (F64.fin ((2 : ℚ) ^ 64))).1.get = F64.fin ((2 : ℚ) ^ 64) := by
  constructor
  · show F64.add (F64.fin 0) (F64.fin ((roundU64 0 : ℕ) : ℚ)) = F64.fin 0
    have h0 : roundU64 0 = 0 := by decide
    rw [h0]
    simp [F64.add]
  · obtain ⟨h1, -⟩ := (counterAdd_int_eval ((2 : ℚ) ^ 64) (by norm_num)).1 le_rfl
    rw [h1]
    show F64.add (F64.fin 0) (F64.fin ((roundU64 (2 ^ 64 - 1) : ℕ) : ℚ)) =
      F64.fin ((2 : ℚ) ^ 64)
    have hr : roundU64 (2 ^ 64 - 1) = 2 ^ 64 := by decide
    rw [hr]
    simp only [F64.add, F64.fin.injEq]
    push_cast
    ring

/-- Claim C10, amended: `Counter::add` on an integral `count ≥ 2 ^ 64` routes
`count.floor() as u64` — which saturates to `u64::MAX = 2 ^ 64 - 1` — into
the integer accumulator, so the accumulator receives strictly less than
`count`; but `value()` reads the accumulator back through the `u64 as f64`
cast, which rounds `2 ^ 64 - 1` up to `2 ^ 64`, so on a fresh counter
`value()` becomes exactly `2 ^ 64` — an increase equal to `count` when
`count = 2 ^ 64` and strictly below `count` only for `count > 2 ^ 64`.
Exact addition of the requested amount into the accumulator happens
precisely for integral counts representable in `u64`. -/
theorem counter_add_saturates (q : ℚ) (hden : q.den = 1) :
    ((2 ^ 64 : ℚ) ≤ q →
      Counter.add Value.new (F64.fin q) = (⟨F64.fin 0, 2 ^ 64 - 1⟩, none) ∧
      ((2 ^ 64 - 1 : ℚ) < q) ∧
      (Counter.add Value.new (F64.fin q)).1.get = F64.fin ((2 : ℚ) ^ 64)) ∧
    (0 ≤ q → q < (2 ^ 64 : ℚ) →
      Counter.add Value.new (F64.fin q) = (⟨F64.fin 0, q.num.toNat⟩, none) ∧
      ((q.num.toNat : ℚ) = q)) := by
  refine ⟨fun hbig => ?_, (counterAdd_int_eval q hden).2⟩
  obtain ⟨h1, h2⟩ := (counterAdd_int_eval q hden).1 hbig
  refine ⟨h1, h2, ?_⟩
  rw [h1]
  show F64.add (F64.fin 0) (F64.fin ((roundU64 (2 ^ 64 - 1) : ℕ) : ℚ)) =
    F64.fin ((2 : ℚ) ^ 64)
  have hr : roundU64 (2 ^ 64 - 1) = 2 ^ 64 := by decide
  rw [hr]
  simp only [F64.add, F64.fin.injEq]
  push_cast
  ring

/-- Claim C10, witness: adding the integral value `2^64` saturates the integer
accumulator at `u64::MAX = 2^64 - 1` and `value()` reads back `2^64`, while
adding `7` is exact. -/
theorem counter_add_saturates_witness :
    Counter.add Value.new (F64.fin ((2 : ℚ) ^ 64)) = (⟨F64.fin 0, 2 ^ 64 - 1⟩, none) ∧
    ((2 ^ 64 - 1 : ℚ) < (2 : ℚ) ^ 64) ∧
    (Counter.add Value.new (F64.fin ((2 : ℚ) ^ 64))).1.get = F64.fin ((2 : ℚ) ^ 64) ∧
    Counter.add Value.new (F64.fin 7) = (⟨F64.fin 0, 7⟩, none) := by
  have h1 := (counter_add_saturates ((2 : ℚ) ^ 64) (by norm_num)).1 le_rfl
  have h2 := (counter_add_saturates 7 (by norm_num)).2 (by norm_num) (by norm_num)
  refine ⟨h1.1, h1.2.1, h1.2.2, ?_⟩
  have h7 : ((7 : ℚ).num.toNat) = 7 := by decide
  rw [h2.1, h7]

/-! ## Labels (`src/label.rs`) -/

/-- The `Label` struct: a name/value pair of strings. -/
structure Label where
  name : String
  value : String
deriving DecidableEq

/-- First-character class of `validate_name`: `'a'..='z' | 'A'..='Z' | '_'`. -/
def isNameStartChar (c : Char) : Bool :=
  ('a' ≤ c && c ≤ 'z') || ('A' ≤ c && c ≤ 'Z') || c = '_'

/-- Remaining-character class of `validate_name`:
`'a'..='z' | 'A'..='Z' | '0'..='9' | '_'`. -/
def isNameChar (c : Char) : Bool :=
  isNameStartChar c || ('0' ≤ c && c ≤ '9')

/-- The `Label::validate_name`: non-empty, not starting with the reserved `"__"`,
first character a letter or underscore, remaining characters alphanumeric or
underscore. -/
def validateLabelName (name : String) : Bool :=
  match name.data with
  | [] => false
  | '_' :: '_' :: _ => false
  | c :: rest => isNameStartChar c && rest.all isNameChar

/-- The per-character escaping of the `fmt::Display` impl for `Label`: the
branch for `'\n'` writes the Rust literal `"\\\\n"`, i.e. the three characters
backslash backslash `n`. -/
def escapeChar (c : Char) : String :=
  if c = '\\' then "\\\\"
  else if c = '\n' then "\\\\n"
  else if c = '"' then "\\\""
  else String.singleton c

/-- Escape a label value character by character. -/
def escapeLabelValue (s : String) : String :=
  String.join (s.data.map escapeChar)

/-- The `fmt::Display` impl for `Label`: `name="escaped-value"`. -/
def Label.display (l : Label) : String :=
  l.name ++ "=\"" ++ escapeLabelValue l.value ++ "\""

/-- The `fmt::Display` impl for `Labels`: the labels, each rendered by
`Label.display`, comma separated inside braces. -/
def Labels.display (ls : List Label) : String :=
  "\x7b" ++ String.intercalate "," (ls.map Label.display) ++ "\x7d"

/-- The derived `Ord` instance on `Label`: lexicographic on `(name, value)`. -/
def labelLe (a b : Label) : Prop :=
  a.name < b.name ∨ (a.name = b.name ∧ a.value ≤ b.value)

instance : DecidableRel labelLe := fun a b => by unfold labelLe; infer_instance

instance : IsTotal Label labelLe where
  total a b := by
    rcases lt_trichotomy a.name b.name with h | h | h
    · exact Or.inl (Or.inl h)
    · rcases le_total a.value b.value with hv | hv
      · exact Or.inl (Or.inr ⟨h, hv⟩)
      · exact Or.inr (Or.inr ⟨h.symm, hv⟩)
    · exact Or.inr (Or.inl h)

instance : IsTrans Label labelLe where
  trans a b c hab hbc := by
    rcases hab with h₁ | ⟨h₁, v₁⟩ <;> rcases hbc with h₂ | ⟨h₂, v₂⟩
    · exact Or.inl (lt_trans h₁ h₂)
    · exact Or.inl (h₂ ▸ h₁)
    · exact Or.inl (h₁ ▸ h₂)
    · exact Or.inr ⟨h₁.trans h₂, le_trans v₁ v₂⟩

instance : IsAntisymm Label labelLe where
  antisymm a b hab hba := by
    obtain ⟨na, va⟩ := a
    obtain ⟨nb, vb⟩ := b
    simp only [labelLe] at hab hba
    rcases hab with h₁ | ⟨h₁, v₁⟩ <;> rcases hba with h₂ | ⟨h₂, v₂⟩
    · exact absurd h₂ (lt_asymm h₁)
    · exact absurd h₁ (h₂ ▸ lt_irrefl _)
    · exact absurd h₂ (h₁ ▸ lt_irrefl _)
    · simp_all [le_antisymm v₁ v₂]

/-- Rust's stable `Vec::sort` on labels (derived `(name, value)` order),
modelled by the stable `insertionSort`. -/
def sortLabels (ls : List Label) : List Label :=
  List.insertionSort labelLe ls

namespace LabelsMut

/-- The `LabelsMut::insert`: reject the reserved name, validate the new name
(`Label::new`), then `retain(|l| l.name != name)`, `push`, `sort`. -/
def insert (reserved : Option String) (ls : List Label) (name value : String) :
    List Label × Option ErrorKind :=
  if reserved = some name then (ls, some ErrorKind.InvalidInput)
  else if validateLabelName name then
    (sortLabels ((ls.filter fun l => l.name != name) ++ [⟨name, value⟩]), none)
  else (ls, some ErrorKind.InvalidInput)

/-- The `LabelsMut::remove`: keep the labels whose name differs. -/
def remove (ls : List Label) (name : String) : List Label :=
  ls.filter fun l => l.name != name

end LabelsMut

/-- Claim C3: the `Display` impl escapes a newline in a label value as the
three characters backslash backslash `n` (the Rust format literal `"\\\\n"`),
not as backslash `n` as both the claim and the comment directly above the
`match` in `label.rs` state.  Evaluation of the code at the failing input
`Label { name: "foo", value: "\n" }`. -/
theorem label_display_newline_bug :
    Label.display ⟨"foo", "\n"⟩ = "foo=\"\\\\n\"" ∧
    Label.display ⟨"foo", "\n"⟩ ≠ "foo=\"\\n\"" ∧
    escapeChar '\\' = "\\\\" ∧ escapeChar '"' = "\\\"" ∧ escapeChar 'a' = "a" := by
  refine ⟨by decide, by decide, by decide, by decide, by decide⟩

/-- Claim C9, counterexample: starting from the label set `{a="x"}`, inserting
the label `("a", "y")` and then removing the name `"a"` yields the empty label
set, not the original one — the insert replaced the pre-existing label of the
same name and the remove deleted it entirely, so the rendered output differs
from the original rendering. -/
theorem labels_insert_remove_counterexample :
    LabelsMut.remove (LabelsMut.insert none [⟨"a", "x"⟩] "a" "y").1 "a" = [] ∧
    Labels.display (LabelsMut.remove (LabelsMut.insert none [⟨"a", "x"⟩] "a" "y").1 "a") ≠
      Labels.display [⟨"a", "x"⟩] := by
  refine ⟨by decide, by decide⟩

/-- Claim C9, amended: if no label with the inserted name is present in the
(sorted, as every builder-made label set is) original set, and the insert is
accepted (valid, non-reserved name), then inserting and then removing that
name restores the original label list exactly, hence also its rendering. -/
theorem labels_insert_remove_roundtrip (reserved : Option String) (ls : List Label)
    (name value : String) (hsorted : List.Sorted labelLe ls)
    (hfresh : ∀ l ∈ ls, l.name ≠ name)
    (hres : reserved ≠ some name) (hvalid : validateLabelName name = true) :
    (LabelsMut.insert reserved ls name value).2 = none ∧
    LabelsMut.remove (LabelsMut.insert reserved ls name value).1 name = ls ∧
    Labels.display (LabelsMut.remove (LabelsMut.insert reserved ls name value).1 name) =
      Labels.display ls := by
  have hfilter : (ls.filter fun l => l.name != name) = ls := by
    refine List.filter_eq_self.mpr fun l hl => ?_
    simpa using hfresh l hl
  have hins : (LabelsMut.insert reserved ls name value).1 =
      sortLabels (ls ++ [⟨name, value⟩]) := by
    simp [LabelsMut.insert, hres, hvalid, hfilter]
  have herr : (LabelsMut.insert reserved ls name value).2 = none := by
    simp [LabelsMut.insert, hres, hvalid]
  have hperm : List.Perm (LabelsMut.remove (LabelsMut.insert reserved ls name value).1 name) ls := by
    rw [hins]
    have h₁ : List.Perm (sortLabels (ls ++ [⟨name, value⟩])) (ls ++ [⟨name, value⟩]) :=
      List.perm_insertionSort labelLe _
    have h₂ := h₁.filter fun l => l.name != name
    rw [List.filter_append, hfilter] at h₂
    simpa [LabelsMut.remove] using h₂
  have hsorted' : List.Sorted labelLe
      (LabelsMut.remove (LabelsMut.insert reserved ls name value).1 name) := by
    rw [hins]
    exact (List.sorted_insertionSort labelLe _).filter _
  have heq := List.eq_of_perm_of_sorted hperm hsorted' hsorted
  exact ⟨herr, heq, by rw [heq]⟩

/-- Claim C9, witness: the amended round-trip theorem applied to the concrete
label set `{a="x"}` with the fresh label `("b", "y")`. -/
theorem labels_insert_remove_roundtrip_witness :
    (LabelsMut.insert none [⟨"a", "x"⟩] "b" "y").2 = none ∧
    LabelsMut.remove (LabelsMut.insert none [⟨"a", "x"⟩] "b" "y").1 "b" = [⟨"a", "x"⟩] := by
  have h := labels_insert_remove_roundtrip none [⟨"a", "x"⟩] "b" "y"
    (by decide) (by decide) (by decide) (by decide)
  exact ⟨h.1, h.2.1⟩

/-! ## Registry and the gather channel (`src/registry.rs`, `src/error.rs`) -/

/-- The state of an `mpsc` channel as seen by a sender: either the receiver is
alive (with the queued items) or it has been dropped. -/
inductive ChannelState (α : Type) where
  | live (queue : List α)
  | dead
deriving DecidableEq

/-- The `std::sync::mpsc::SendError<T>`: the rejected value is handed back. -/
structure SendError (α : Type) where
  val : α
deriving DecidableEq

/-- The `mpsc::Sender::send`: enqueues on a live channel, errors if the receiver
was dropped. -/
def mpscSend {α : Type} : ChannelState α → α → Except (SendError α) (ChannelState α)
  | ChannelState.live q, c => Except.ok (ChannelState.live (q ++ [c]))
  | ChannelState.dead, c => Except.error ⟨c⟩

/-- The `From<SendError<T>> for Error` impl of `src/error.rs`: the resulting
error has kind `Other`. -/
def errorFromSendError {α : Type} (_ : SendError α) : ErrorKind := ErrorKind.Other

/-- The `Registry::register`: `let _ = self.tx.send(Collector(..));` — the send
result is discarded, the function returns `()` and on failure leaves the
channel as it was. -/
def Registry.register {α : Type} (st : ChannelState α) (c : α) : Unit × ChannelState α :=
  match mpscSend st c with
  | Except.ok st' => ((), st')
  | Except.error _ => ((), st)

/-- Claim C2, counterexample: registering against a registry whose gatherer
has been dropped does NOT return an error to the caller.  The underlying
channel send does fail (and `From<SendError>` would turn that failure into an
`Other`-kind error), but `register` discards it with `let _ = ...` and returns
plain `()`. -/
theorem registry_register_dead_counterexample :
    Registry.register (ChannelState.dead : ChannelState Nat) 0 = ((), ChannelState.dead) ∧
    mpscSend (ChannelState.dead : ChannelState Nat) 0 = Except.error ⟨0⟩ ∧
    errorFromSendError (⟨0⟩ : SendError Nat) = ErrorKind.Other := by
  refine ⟨rfl, rfl, rfl⟩

/-- Claim C2, amended: `Registry::register` never panics and never surfaces an
error: against a live gatherer it enqueues the collector on the channel, and
against a dropped gatherer it silently discards the send failure and leaves
the channel state unchanged. -/
theorem registry_register_never_errors {α : Type} (st : ChannelState α) (c : α) :
    Registry.register st c =
      ((), match st with
           | ChannelState.live q => ChannelState.live (q ++ [c])
           | ChannelState.dead => ChannelState.dead) := by
  cases st <;> rfl

/-! ## Summary (`src/metrics/summary.rs`)

`SystemTime` instants are modelled as natural numbers;
`now.duration_since(t)` is `Ok(now - t)` when `t ≤ now` and an error
otherwise, and `Duration` comparison is comparison of those numbers. -/

/-- The eviction loop at the head of `with_current_samples`: pop from the
front while the front sample's age relative to `now` exceeds the window
(samples from the future, `t > now`, stop the loop, since `duration_since`
errors on them). -/
def evictOld (now window : Nat) : List (Nat × F64) → List (Nat × F64)
  | [] => []
  | s :: rest =>
    if s.1 ≤ now ∧ now - s.1 > window then evictOld now window rest else s :: rest

/-- The `samples.sort_by(|a, b| a.partial_cmp(b).expect(..))` — the values sorted
here are the retained non-NaN sample values, on which `leb` agrees with
`partial_cmp`. -/
def sortSamples (vs : List F64) : List F64 :=
  List.insertionSort F64.Le vs

/-- The quantile-to-value mapping loop of `Summary::quantiles`:
`index = cmp::min(count, (q * count as f64).floor() as usize)` followed by
`samples[index]`, which panics (`none`) when the index is out of range. -/
def lookupQuantiles (sorted : List F64) (count : Nat) : List ℚ → Option (List (ℚ × F64))
  | [] => some []
  | q :: rest =>
    match sorted.get? (min count (⌊q * (count : ℚ)⌋ : ℤ).toNat) with
    | some v => (lookupQuantiles sorted count rest).map (fun tl => (q, v) :: tl)
    | none => none

/-- The `Summary::quantiles`: take the currently retained samples (evicting the
expired ones first, as `with_current_samples` does), drop NaN values, sort
ascending, return `[]` when nothing is retained, else evaluate every
requested quantile. -/
def summaryQuantiles (qs : List ℚ) (now window : Nat) (samples : List (Nat × F64)) :
    Option (List (ℚ × F64)) :=
  let retained := evictOld now window samples
  let vals := (retained.map Prod.snd).filter (fun v => !v.isNan)
  let sorted := sortSamples vals
  if sorted.isEmpty then some []
  else lookupQuantiles sorted sorted.length qs

/-- The state of a `Summary` relevant to observation: the sample queue, the
all-time count and sum, and the configured window. -/
structure SummaryState where
  samples : List (Nat × F64)
  count : Nat
  sum : F64
  window : Nat
deriving DecidableEq

/-- The `Summary::observe`: `with_current_samples` evicts the expired samples and
pushes `(now, value)` at the back; then the all-time count is incremented and
`value` is added to the all-time sum, unconditionally. -/
def Summary.observe (now : Nat) (v : F64) (st : SummaryState) : SummaryState :=
  { st with
    samples := evictOld now st.window st.samples ++ [(now, v)]
    count := (st.count + 1) % 2 ^ 64
    sum := F64.add st.sum v }

/-- A whole sequence of `observe` calls, oldest first. -/
def Summary.observeAll (obs : List (Nat × F64)) (st : SummaryState) : SummaryState :=
  obs.foldl (fun s o => Summary.observe o.1 o.2 s) st

/-- Claim C1: `Summary::quantiles` computes the index
`cmp::min(count, floor(q * count))` — clamping at `count`, not at
`count - 1` as the claim states — so for the (valid, `Quantile::new`-accepted)
quantile `q = 1.0` it reads `samples[count]`, one past the end, and panics
instead of returning the maximum retained sample.  Evaluation at the failing
input: one retained sample `5.0`, requested quantiles `[1.0]` (first
conjunct); the second conjunct shows the median works on the same sample
queue, isolating the failure to `q = 1.0`. -/
theorem summary_quantiles_q1_out_of_range :
    summaryQuantiles [(1 : ℚ)] 0 10 [(0, F64.fin 5)] = none ∧
    summaryQuantiles [(1 : ℚ) / 2] 0 10 [(0, F64.fin 5)] =
      some [((1 : ℚ) / 2, F64.fin 5)] := by
  constructor
  · norm_num [summaryQuantiles, evictOld, sortSamples, lookupQuantiles,
      F64.isNan, List.insertionSort, List.orderedInsert]
  · norm_num [summaryQuantiles, evictOld, sortSamples, lookupQuantiles,
      F64.isNan, List.insertionSort, List.orderedInsert]

/-- Evicting before appending the fresh sample `(now, v)` (what the code
does) equals appending and then evicting (what the claim describes): the
fresh sample has age `0`, which never exceeds the window. -/
theorem evictOld_append (now w : Nat) (l : List (Nat × F64)) (v : F64) :
    evictOld now w l ++ [(now, v)] = evictOld now w (l ++ [(now, v)]) := by
  induction l with
  | nil => simp [evictOld, Nat.sub_self]
  | cons s rest ih =>
    by_cases h : s.1 ≤ now ∧ now - s.1 > w
    · simpa [evictOld, h] using ih
    · simp [evictOld, h]

/-- Claim C7: each `observe(v)` at time `now` yields the state whose sample
queue is the old queue with `(now, v)` appended and every over-age sample
evicted from the front, whose count is incremented by one and whose sum has
`v` added — and over any sequence of observations the count and sum
accumulate every observation ever made, independent of the window and of any
eviction. -/
theorem summary_observe_spec :
    (∀ (now : Nat) (v : F64) (st : SummaryState),
      Summary.observe now v st =
        { samples := evictOld now st.window (st.samples ++ [(now, v)])
          count := (st.count + 1) % 2 ^ 64
          sum := F64.add st.sum v
          window := st.window }) ∧
    (∀ (obs : List (Nat × F64)) (st : SummaryState), st.count < 2 ^ 64 →
      (Summary.observeAll obs st).count = (st.count + obs.length) % 2 ^ 64 ∧
      (Summary.observeAll obs st).sum =
        obs.foldl (fun a o => F64.add a o.2) st.sum ∧
      (Summary.observeAll obs st).window = st.window) := by
  constructor
  · intro now v st
    simp [Summary.observe, evictOld_append]
  · intro obs
    induction obs with
    | nil =>
      intro st hc
      simpa [Summary.observeAll] using (Nat.mod_eq_of_lt hc).symm
    | cons o rest ih =>
      intro st hc
      have h := ih (Summary.observe o.1 o.2 st)
        (by simp [Summary.observe]; exact Nat.mod_lt _ (by norm_num))
      refine ⟨?_, ?_, ?_⟩
      · calc (Summary.observeAll (o :: rest) st).count
            = (Summary.observeAll rest (Summary.observe o.1 o.2 st)).count := rfl
          _ = ((st.count + 1) % 2 ^ 64 + rest.length) % 2 ^ 64 := h.1
          _ = (st.count + (o :: rest).length) % 2 ^ 64 := by
              rw [Nat.mod_add_mod]
              simp [Nat.add_assoc, Nat.add_comm 1 rest.length]
      · calc (Summary.observeAll (o :: rest) st).sum
            = (Summary.observeAll rest (Summary.observe o.1 o.2 st)).sum := rfl
          _ = rest.foldl (fun a x => F64.add a x.2) (F64.add st.sum o.2) := h.2.1
          _ = (o :: rest).foldl (fun a x => F64.add a x.2) st.sum := rfl
      · exact h.2.2

/-- Claim C7, witness: the observe-step characterisation and the all-time
count, applied to one observation of `2.0` at time `0` on a fresh summary
with a window of `10`. -/
theorem summary_observe_spec_witness :
    Summary.observe 0 (F64.fin 2) ⟨[], 0, F64.fin 0, 10⟩ =
      { samples := evictOld 0 10 ([] ++ [(0, F64.fin 2)])
        count := (0 + 1) % 2 ^ 64
        sum := F64.add (F64.fin 0) (F64.fin 2)
        window := 10 } ∧
    (Summary.observeAll [(0, F64.fin 2)] ⟨[], 0, F64.fin 0, 10⟩).count =
      (0 + 1) % 2 ^ 64 := by
  have h := summary_observe_spec
  exact ⟨h.1 0 (F64.fin 2) ⟨[], 0, F64.fin 0, 10⟩,
    (h.2 [(0, F64.fin 2)] ⟨[], 0, F64.fin 0, 10⟩ (by decide)).1⟩

/-! ## Histogram (`src/metrics/histogram.rs`)

`Histogram::observe` runs `slice::binary_search_by` over the bucket upper
bounds with the comparator `b.upper_bound().partial_cmp(&value).expect(..)`.
The loop below is the slice binary search of the Rust standard library;
it is written with an explicit fuel argument so that the recursion is
structural (`right - left` strictly decreases every iteration, so
`bs.length + 1` fuel always suffices).  `cmpTotal` stands for the
`partial_cmp(..).expect(..)` comparator; the `expect` can only be reached on
NaN, which `observe` asserts away for the value and `Bucket::new` rejects for
the bounds. -/

namespace F64

/-- The `partial_cmp(..).expect(..)`: total on the non-NaN values it is actually
applied to (`cmp_eq_cmpTotal`); the default is never reached there. -/
def cmpTotal (a b : F64) : Ordering := (cmp a b).getD Ordering.lt

/-- On non-NaN arguments, `cmp` is `some` of the total comparator. -/
theorem cmp_eq_cmpTotal {a b : F64} (ha : a.isNan = false) (hb : b.isNan = false) :
    cmp a b = some (cmpTotal a b) := by
  cases a <;> cases b <;> simp_all [isNan, cmp, cmpTotal]

/-- The sort relation is reflexive. -/
theorem le_refl_f64 (a : F64) : Le a a := by
  cases a <;> simp [Le, leb]

/-- The `<` on `f64` mixed with the sort relation, left. -/
theorem ltP_of_le_ltP {a b c : F64} (ha : a.isNan = false)
    (hab : Le a b) (hbc : ltP b c = true) : ltP a c = true := by
  cases a <;> cases b <;> cases c <;>
    simp_all [isNan, Le, leb, ltP, cmp] <;>
    split_ifs at * <;> simp_all <;> linarith

/-- The `<` on `f64` mixed with the sort relation, right. -/
theorem ltP_of_ltP_le {a b c : F64} (hab : ltP a b = true) (hbc : Le b c) :
    ltP a c = true := by
  cases a <;> cases b <;> cases c <;>
    simp_all [Le, leb, ltP, cmp] <;>
    split_ifs at * <;> simp_all <;> linarith

/-- The `a < b` and `a >= b` cannot both hold. -/
theorem not_ltP_geP {a b : F64} (h₁ : ltP a b = true) (h₂ : geP a b = true) : False := by
  cases a <;> cases b <;> simp_all [ltP, geP, cmp] <;> split_ifs at * <;> simp_all

/-- The `a < b` gives `b >= a`. -/
theorem geP_of_ltP_swap {a b : F64} (h : ltP a b = true) : geP b a = true := by
  cases a <;> cases b <;> simp_all [ltP, geP, cmp] <;> split_ifs at * <;> simp_all <;> linarith

/-- Equal compare gives `>=`. -/
theorem geP_of_cmp_eq {a b : F64} (h : cmp a b = some Ordering.eq) : geP a b = true := by
  simp [geP, h]

/-- The `a < b` and `b` compares equal to `c` give `a < c`. -/
theorem ltP_of_ltP_cmp_eq {a b c : F64} (hab : ltP a b = true)
    (hbc : cmp b c = some Ordering.eq) : ltP a c = true := by
  cases a <;> cases b <;> cases c <;> simp_all [ltP, cmp] <;> split_ifs at * <;>
    simp_all <;> linarith

/-- The `+Inf >= v` for every non-NaN `v`. -/
theorem geP_inf {v : F64} (hv : v.isNan = false) : geP inf v = true := by
  cases v <;> simp_all [isNan, geP, cmp]

end F64

/-- The `l.getD n d` is the `n`-th element when `n` is in range. -/
theorem getD_eq_get {α : Type _} (l : List α) (n : Nat) (d : α) (h : n < l.length) :
    l.getD n d = l.get ⟨n, h⟩ := by
  simp [List.getD, List.getElem?_eq_getElem h, List.get_eq_getElem]

/-- The binary-search loop of `slice::binary_search_by` (fuel-indexed; see the
section header). -/
def binarySearchGo (bs : List F64) (v : F64) : Nat → Nat → Nat → Except Nat Nat
  | 0, left, _ => Except.error left
  | fuel + 1, left, right =>
    if left < right then
      match F64.cmpTotal (bs.getD (left + (right - left) / 2) F64.nan) v with
      | Ordering.lt => binarySearchGo bs v fuel (left + (right - left) / 2 + 1) right
      | Ordering.gt => binarySearchGo bs v fuel left (left + (right - left) / 2)
      | Ordering.eq => Except.ok (left + (right - left) / 2)
    else Except.error left

/-- The `bs.binary_search_by(..).unwrap_or_else(|i| i)`: the matching index on a
hit, the insertion point on a miss. -/
def rustBinarySearch (bs : List F64) (v : F64) : Nat :=
  match binarySearchGo bs v (bs.length + 1) 0 bs.length with
  | Except.ok i => i
  | Except.error i => i

/-- The state of a `Histogram` relevant to observation: the buckets (upper
bound, count), the total count and the sum. -/
structure HistState where
  buckets : List (F64 × Nat)
  count : Nat
  sum : F64
deriving DecidableEq

/-- The `self.0.buckets.get(i).map(|b| b.increment())`: increment the count of
bucket `i`, a no-op when `i` is out of range. -/
def incAt : List (F64 × Nat) → Nat → List (F64 × Nat)
  | [], _ => []
  | b :: rest, 0 => (b.1, (b.2 + 1) % 2 ^ 64) :: rest
  | b :: rest, n + 1 => b :: incAt rest n

/-- The `Histogram::observe`: `assert!(!value.is_nan())` (panic modelled as
`none`), binary-search the first bucket position for the value, increment
that bucket, then the total count, then the sum. -/
def Histogram.observe (st : HistState) (v : F64) : Option HistState :=
  if v.isNan then none
  else
    some { buckets := incAt st.buckets (rustBinarySearch (st.buckets.map Prod.fst) v)
           count := (st.count + 1) % 2 ^ 64
           sum := F64.add st.sum v }

/-- The `HistogramBuilder::new` starts from the single upper bound `+Inf`;
`bucket()` appends; `finish()` rejects NaN bounds (`Bucket::new`) and sorts
the bounds ascending (stable sort, modelled by `insertionSort`). -/
def histogramBounds (pushed : List F64) : Option (List F64) :=
  if (F64.inf :: pushed).any F64.isNan then none
  else some (List.insertionSort F64.Le (F64.inf :: pushed))

/-- Builder-constructed bounds are sorted, NaN-free and contain `+Inf`. -/
theorem histogramBounds_spec (pushed : List F64) (bs : List F64)
    (h : histogramBounds pushed = some bs) :
    List.Pairwise F64.Le bs ∧ (∀ b ∈ bs, b.isNan = false) ∧ F64.inf ∈ bs := by
  unfold histogramBounds at h
  by_cases hnan : (F64.inf :: pushed).any F64.isNan
  · simp [hnan] at h
  · simp only [hnan, if_neg, Bool.false_eq_true, not_false_eq_true, if_false,
      Option.some.injEq] at h
    subst h
    refine ⟨List.sorted_insertionSort F64.Le _, ?_, ?_⟩
    · intro b hb
      have hb' : b ∈ F64.inf :: pushed :=
        (List.perm_insertionSort F64.Le _).mem_iff.mp hb
      by_contra hb''
      exact hnan (List.any_eq_true.mpr ⟨b, hb', by simpa using hb''⟩)
    · exact (List.perm_insertionSort F64.Le _).mem_iff.mpr (List.mem_cons_self _ _)
/-- The `cmp a b = gt` gives `b < a`. -/
theorem F64.ltP_of_cmp_gt {a b : F64} (h : F64.cmp a b = some Ordering.gt) :
    F64.ltP b a = true := by
  cases a <;> cases b <;> simp_all [F64.cmp, F64.ltP] <;> split_ifs at * <;> simp_all

/-- Correctness of the binary-search loop on a sorted, NaN-free bound list:
a hit returns an index whose bound compares equal to the value; a miss
returns the insertion point — every bound before it is `< v`, every bound at
or after it is `> v`. -/
theorem binarySearchGo_spec (bs : List F64) (v : F64)
    (hv : v.isNan = false) (hnn : ∀ b ∈ bs, b.isNan = false)
    (hsorted : List.Pairwise F64.Le bs) :
    ∀ (fuel left right : Nat), right - left < fuel → left ≤ right → right ≤ bs.length →
      (∀ k, k < left → k < bs.length → F64.ltP (bs.getD k F64.nan) v = true) →
      (∀ k, right ≤ k → k < bs.length → F64.ltP v (bs.getD k F64.nan) = true) →
      (match binarySearchGo bs v fuel left right with
       | Except.ok i => i < bs.length ∧ F64.cmp (bs.getD i F64.nan) v = some Ordering.eq
       | Except.error i => i ≤ bs.length ∧
           (∀ k, k < i → k < bs.length → F64.ltP (bs.getD k F64.nan) v = true) ∧
           (∀ k, i ≤ k → k < bs.length → F64.ltP v (bs.getD k F64.nan) = true)) := by
  have hle : ∀ k m : Nat, k ≤ m → ∀ hm : m < bs.length,
      F64.Le (bs.getD k F64.nan) (bs.getD m F64.nan) := by
    intro k m hkm hm
    rcases eq_or_lt_of_le hkm with rfl | hlt
    · exact F64.le_refl_f64 _
    · have hk : k < bs.length := lt_trans hlt hm
      rw [getD_eq_get _ _ _ hk, getD_eq_get _ _ _ hm]
      exact List.pairwise_iff_get.mp hsorted ⟨k, hk⟩ ⟨m, hm⟩ hlt
  have hnnk : ∀ k, k < bs.length → (bs.getD k F64.nan).isNan = false := by
    intro k hk
    rw [getD_eq_get _ _ _ hk]
    exact hnn _ (bs.get_mem _ _)
  intro fuel
  induction fuel with
  | zero => intro left right hf; omega
  | succ fuel ih =>
    intro left right hf hlr hrlen hlo hhi
    by_cases h : left < right
    · set mid := left + (right - left) / 2 with hmiddef
      have hmidlt : mid < right := by
        have h2 : (right - left) / 2 < right - left :=
          Nat.div_lt_self (by omega) (by norm_num)
        omega
      have hmidge : left ≤ mid := Nat.le_add_right _ _
      have hmidlen : mid < bs.length := lt_of_lt_of_le hmidlt hrlen
      have hmidnn := hnnk _ hmidlen
      have hcmps := F64.cmp_eq_cmpTotal hmidnn hv
      rcases hord : F64.cmpTotal (bs.getD mid F64.nan) v with _ | _ | _
      · -- lt: everything up to mid is < v, recurse on the right half
        rw [hord] at hcmps
        have hmidlt_v : F64.ltP (bs.getD mid F64.nan) v = true := by
          unfold F64.ltP
          rw [hcmps]
        have harg1 : right - (mid + 1) < fuel := by omega
        have harg2 : mid + 1 ≤ right := by omega
        have hrec := ih (mid + 1) right harg1 harg2 hrlen
          (by
            intro k hk hklen
            by_cases hkl : k < left
            · exact hlo k hkl hklen
            · exact F64.ltP_of_le_ltP (hnnk k hklen)
                (hle k mid (by omega) hmidlen) hmidlt_v)
          hhi
        simp only [binarySearchGo, if_pos h, ← hmiddef, hord]
        exact hrec
      · -- eq: hit at mid
        rw [hord] at hcmps
        simp only [binarySearchGo, if_pos h, ← hmiddef, hord]
        exact ⟨hmidlen, hcmps⟩
      · -- gt: everything from mid on is > v, recurse on the left half
        rw [hord] at hcmps
        have hv_lt_mid : F64.ltP v (bs.getD mid F64.nan) = true :=
          F64.ltP_of_cmp_gt hcmps
        have harg1 : mid - left < fuel := by omega
        have harg2 : left ≤ mid := by omega
        have hrec := ih left mid harg1 harg2 (le_of_lt hmidlen) hlo
          (by
            intro k hk hklen
            exact F64.ltP_of_ltP_le hv_lt_mid (hle mid k hk hklen))
        simp only [binarySearchGo, if_pos h, ← hmiddef, hord]
        exact hrec
    · -- loop over: Err(left)
      simp only [binarySearchGo, if_neg h]
      exact ⟨by omega, hlo, fun k hk hklen => hhi k (by omega) hklen⟩

/-- The `incAt` never changes the bounds. -/
theorem incAt_map_fst (l : List (F64 × Nat)) (i : Nat) :
    (incAt l i).map Prod.fst = l.map Prod.fst := by
  induction l generalizing i with
  | nil => rfl
  | cons b rest ih =>
    cases i with
    | zero => simp [incAt]
    | succ n => simp [incAt, ih n]

/-- The `incAt l i` increments exactly the count of bucket `i` and leaves every
other bucket untouched. -/
theorem incAt_snd (l : List (F64 × Nat)) (i : Nat) :
    ∀ j, j < l.length →
      ((incAt l i).getD j (F64.nan, 0)).2 =
        if j = i then ((l.getD j (F64.nan, 0)).2 + 1) % 2 ^ 64
        else (l.getD j (F64.nan, 0)).2 := by
  induction l generalizing i with
  | nil => intro j hj; simp at hj
  | cons b rest ih =>
    intro j hj
    cases i with
    | zero =>
      cases j with
      | zero => simp [incAt]
      | succ m => simp [incAt]
    | succ n =>
      cases j with
      | zero => simp [incAt]
      | succ m =>
        have := ih n m (by simpa using Nat.lt_of_succ_lt_succ hj)
        simpa [incAt, Nat.succ_inj] using this

/-- The collapsed `binary_search_by(..).unwrap_or_else(|i| i)` on a sorted
NaN-free bound list containing some bound `≥ v`: the result is in range, its
bound is `≥ v`, and — when the bounds are strictly ascending — every earlier
bound is `< v` (with duplicated bounds a later duplicate can be hit). -/
theorem rustBinarySearch_spec (bs : List F64) (v : F64)
    (hv : v.isNan = false) (hnn : ∀ b ∈ bs, b.isNan = false)
    (hsorted : List.Pairwise F64.Le bs)
    (hex : ∃ b ∈ bs, F64.geP b v = true) :
    rustBinarySearch bs v < bs.length ∧
    F64.geP (bs.getD (rustBinarySearch bs v) F64.nan) v = true ∧
    (List.Pairwise (fun a b => F64.ltP a b = true) bs →
      ∀ j, j < rustBinarySearch bs v → F64.ltP (bs.getD j F64.nan) v = true) := by
  have hspec := binarySearchGo_spec bs v hv hnn hsorted (bs.length + 1) 0 bs.length
    (by omega) (Nat.zero_le _) le_rfl
    (fun k hk _ => absurd hk (Nat.not_lt_zero k))
    (fun k hk hklen => absurd (lt_of_le_of_lt hk hklen) (lt_irrefl _))
  unfold rustBinarySearch
  cases hres : binarySearchGo bs v (bs.length + 1) 0 bs.length with
  | ok i =>
    rw [hres] at hspec
    obtain ⟨hilen, hieq⟩ := hspec
    refine ⟨hilen, F64.geP_of_cmp_eq hieq, ?_⟩
    intro hstrict j hj
    have hjlen : j < bs.length := lt_trans hj hilen
    have hjlt : F64.ltP (bs.getD j F64.nan) (bs.getD i F64.nan) = true := by
      rw [getD_eq_get _ _ _ hjlen, getD_eq_get _ _ _ hilen]
      exact List.pairwise_iff_get.mp hstrict ⟨j, hjlen⟩ ⟨i, hilen⟩ hj
    exact F64.ltP_of_ltP_cmp_eq hjlt hieq
  | error i =>
    rw [hres] at hspec
    obtain ⟨hile, hlo, hhi⟩ := hspec
    have hilen : i < bs.length := by
      by_contra hcon
      have hieq : i = bs.length := by omega
      obtain ⟨b, hb, hgeb⟩ := hex
      obtain ⟨⟨k, hk⟩, rfl⟩ := List.mem_iff_get.mp hb
      have hltb : F64.ltP (bs.get ⟨k, hk⟩) v = true := by
        have := hlo k (by omega) hk
        rwa [getD_eq_get _ _ _ hk] at this
      exact F64.not_ltP_geP hltb hgeb
    refine ⟨hilen, ?_, ?_⟩
    · exact F64.geP_of_ltP_swap (hhi i le_rfl hilen)
    · intro _ j hj
      exact hlo j hj (lt_trans hj hilen)

/-- Claim C6, amended: for every non-NaN `v` observed on a histogram whose
bucket bounds are sorted ascending, NaN-free and contain `+Inf` (all
guaranteed by the builder, `histogramBounds_spec`), `observe` does not panic
and increments the counter of exactly one bucket — one whose upper bound is
`≥ v`; when the bounds are strictly ascending (no duplicated bounds) that
bucket is the *first* one with bound `≥ v`, but with duplicated equal bounds
the binary search may land on a later duplicate
(`histogram_observe_duplicate_counterexample`).  The total count and the sum
accumulator are both updated. -/
theorem histogram_observe_spec (st : HistState) (v : F64)
    (hv : v.isNan = false)
    (hnn : ∀ b ∈ st.buckets.map Prod.fst, b.isNan = false)
    (hsorted : List.Pairwise F64.Le (st.buckets.map Prod.fst))
    (hinf : F64.inf ∈ st.buckets.map Prod.fst) :
    ∃ i, Histogram.observe st v =
        some { buckets := incAt st.buckets i
               count := (st.count + 1) % 2 ^ 64
               sum := F64.add st.sum v } ∧
      i < st.buckets.length ∧
      F64.geP ((st.buckets.map Prod.fst).getD i F64.nan) v = true ∧
      (∀ j, j < st.buckets.length → j ≠ i →
        ((incAt st.buckets i).getD j (F64.nan, 0)).2 =
          (st.buckets.getD j (F64.nan, 0)).2) ∧
      ((incAt st.buckets i).getD i (F64.nan, 0)).2 =
        ((st.buckets.getD i (F64.nan, 0)).2 + 1) % 2 ^ 64 ∧
      (List.Pairwise (fun a b => F64.ltP a b = true) (st.buckets.map Prod.fst) →
        ∀ j, j < i → F64.ltP ((st.buckets.map Prod.fst).getD j F64.nan) v = true) := by
  have hex : ∃ b ∈ st.buckets.map Prod.fst, F64.geP b v = true :=
    ⟨F64.inf, hinf, F64.geP_inf hv⟩
  obtain ⟨hlen, hge, hfirst⟩ :=
    rustBinarySearch_spec (st.buckets.map Prod.fst) v hv hnn hsorted hex
  rw [List.length_map] at hlen
  refine ⟨rustBinarySearch (st.buckets.map Prod.fst) v, ?_, hlen, hge, ?_, ?_, hfirst⟩
  · simp [Histogram.observe, hv]
  · intro j hj hne
    rw [incAt_snd st.buckets _ j hj, if_neg hne]
  · rw [incAt_snd st.buckets _ _ hlen, if_pos rfl]

/-- Claim C6, counterexample: on a histogram with the duplicated bounds
`[5, 5, +Inf]`, observing `5.0` increments the SECOND bucket (index 1), not
the first bucket whose upper bound is `≥ 5` (index 0, whose bound `5 ≥ 5`):
the bucket counts become `[0, 1, 0]`, while the claim requires `[1, 0, 0]`. -/
theorem histogram_observe_duplicate_counterexample :
    (Histogram.observe ⟨[(F64.fin 5, 0), (F64.fin 5, 0), (F64.inf, 0)], 0, F64.fin 0⟩
        (F64.fin 5)).map (fun s => s.buckets.map Prod.snd) = some [0, 1, 0] ∧
    F64.geP (F64.fin 5) (F64.fin 5) = true ∧
    (some [0, 1, 0] : Option (List Nat)) ≠ some [1, 0, 0] := by
  refine ⟨by decide, by decide, by decide⟩

/-- Claim C6, witness: the amended theorem applied to a builder-shaped
histogram with bounds `[0, 10, +Inf]` observing `7.0`; bucket index 1 (bound
`10`, the first bound `≥ 7`) is the one incremented. -/
theorem histogram_observe_spec_witness :
    (Histogram.observe ⟨[(F64.fin 0, 0), (F64.fin 10, 0), (F64.inf, 0)], 0, F64.fin 0⟩
        (F64.fin 7)).map (fun s => s.buckets.map Prod.snd) = some [0, 1, 0] := by
  obtain ⟨i, hobs, hlen, hge, hoth, hself, hfirst⟩ :=
    histogram_observe_spec ⟨[(F64.fin 0, 0), (F64.fin 10, 0), (F64.inf, 0)], 0, F64.fin 0⟩
      (F64.fin 7) (by decide) (by decide) (by decide) (by decide)
  have hi : i = 1 := by
    match i, hlen with
    | 0, _ => exact absurd hge (by decide)
    | 1, _ => rfl
    | 2, _ => exact absurd (hfirst (by decide) 1 (by omega)) (by decide)
  subst hi
  rw [hobs]
  decide

/-! ## Gatherer (`src/registry.rs`, `src/metric.rs`)

A collector is modelled by its identity; the environment `env` maps a
collector identity to what its `collect()` call yields in the current
`gather` — `none` when the backing metric has been dropped (the collector is
then removed from the live list with `swap_remove`), `some metrics`
otherwise.  A `Metric` carries the `(name, kind)` key used for sorting and
grouping, its help text, and an opaque payload standing for its remaining state. -/

/-- The four metric kinds, in the declaration order of the Rust enum (the
derived `Ord` sorts by this order). -/
inductive MetricKind where
  | counter
  | gauge
  | summary
  | histogram
deriving DecidableEq

/-- Position of a kind in the declaration order (the derived `Ord`). -/
def MetricKind.idx : MetricKind → Nat
  | .counter => 0
  | .gauge => 1
  | .summary => 2
  | .histogram => 3

/-- A gathered metric: its name, kind, help text, and an opaque payload
standing for the rest of its state. -/
structure Metric where
  name : String
  kind : MetricKind
  help : Option String
  payload : Int
deriving DecidableEq

/-- The sort order of `gather`: `(name, kind)` lexicographically, as in
`metrics.sort_by(|a, b| (a.name(), a.kind()).cmp(&(b.name(), b.kind())))`. -/
def metricLe (a b : Metric) : Prop :=
  a.name < b.name ∨ (a.name = b.name ∧ a.kind.idx ≤ b.kind.idx)

instance : DecidableRel metricLe := fun a b => by unfold metricLe; infer_instance

instance : IsTotal Metric metricLe where
  total a b := by
    rcases lt_trichotomy a.name b.name with h | h | h
    · exact Or.inl (Or.inl h)
    · rcases Nat.le_total a.kind.idx b.kind.idx with hv | hv
      · exact Or.inl (Or.inr ⟨h, hv⟩)
      · exact Or.inr (Or.inr ⟨h.symm, hv⟩)
    · exact Or.inr (Or.inl h)

instance : IsTrans Metric metricLe where
  trans a b c hab hbc := by
    rcases hab with h₁ | ⟨h₁, v₁⟩ <;> rcases hbc with h₂ | ⟨h₂, v₂⟩
    · exact Or.inl (lt_trans h₁ h₂)
    · exact Or.inl (h₂ ▸ h₁)
    · exact Or.inl (h₁ ▸ h₂)
    · exact Or.inr ⟨h₁.trans h₂, le_trans v₁ v₂⟩

/-- A `MetricFamily` (`src/metric.rs`): name and kind of the family, the help
text taken from the first member, and the member metrics. -/
structure MetricFamily where
  name : String
  kind : MetricKind
  help : Option String
  metrics : List Metric
deriving DecidableEq

/-- The `MetricFamily::new`: a one-member family carrying the metric's name, kind
and help. -/
def MetricFamily.new (m : Metric) : MetricFamily :=
  ⟨m.name, m.kind, m.help, [m]⟩

/-- The `MetricFamily::push`: append a member; name, kind and help (the
first-seen member's) are untouched. -/
def MetricFamily.push (f : MetricFamily) (m : Metric) : MetricFamily :=
  { f with metrics := f.metrics ++ [m] }

/-- The family-folding loop body of `gather`: if the last family so far has
the same `(name, kind)` (`MetricFamily::same_family`), push into it,
otherwise start a new family. -/
def addMetricToFamilies (fams : List MetricFamily) (m : Metric) : List MetricFamily :=
  match fams.getLast? with
  | some f =>
    if f.name = m.name ∧ f.kind = m.kind then fams.dropLast ++ [f.push m]
    else fams ++ [MetricFamily.new m]
  | none => [MetricFamily.new m]

/-- The whole family-folding loop over the sorted metric list. -/
def buildFamilies (ms : List Metric) : List MetricFamily :=
  ms.foldl addMetricToFamilies []

/-- All metrics of a family list, in order. -/
def famsJoin (fams : List MetricFamily) : List Metric :=
  (fams.map MetricFamily.metrics).flatten

/-- A collector, identified by the metric state it weakly references. -/
structure GCollector where
  id : Nat
deriving DecidableEq

/-- The `Vec::swap_remove(i)`: overwrite position `i` with the last element, pop
the last element. -/
def swapRemove {α : Type _} (l : List α) (i : Nat) : List α :=
  match l.getLast? with
  | some x => (l.set i x).dropLast
  | none => []

theorem swapRemove_eq {α : Type _} (l : List α) (i : Nat) (hne : l ≠ []) :
    swapRemove l i = (l.set i (l.getLast hne)).dropLast := by
  unfold swapRemove
  rw [List.getLast?_eq_getLast l hne]

theorem swapRemove_length {α : Type _} (l : List α) (i : Nat) (h : l ≠ []) :
    (swapRemove l i).length = l.length - 1 := by
  rw [swapRemove_eq l i h]
  simp

theorem swapRemove_take {α : Type _} (l : List α) (i : Nat) (h : i < l.length) :
    (swapRemove l i).take i = l.take i := by
  have hne : l ≠ [] := List.ne_nil_of_length_pos (by omega)
  rw [swapRemove_eq l i hne]
  rw [List.dropLast_eq_take, List.length_set]
  rw [List.take_take, Nat.min_eq_left (by omega)]
  rw [List.set_eq_take_cons_drop _ h]
  exact List.take_left' (by simp [List.length_take]; omega)

theorem swapRemove_drop_perm {α : Type _} (l : List α) (i : Nat) (h : i < l.length) :
    ((swapRemove l i).drop i).Perm (l.drop (i + 1)) := by
  have hne : l ≠ [] := List.ne_nil_of_length_pos (by omega)
  rw [swapRemove_eq l i hne]
  rcases Nat.lt_or_ge (i + 1) l.length with h2 | h2
  · -- not the last position: the popped last element reappears at slot `i`
    have hD : l.drop (i + 1) ≠ [] := by
      intro hnil
      have := List.drop_eq_nil_iff.mp hnil
      omega
    have hmem : (l.drop (i + 1)).getLast hD ∈ l.getLast? := by
      have hm : (l.drop (i + 1)).getLast hD ∈ (l.drop (i + 1)).getLast? := by
        rw [List.getLast?_eq_getLast _ hD]
        rfl
      have h6 : (l.drop (i + 1)).getLast hD ∈ (l.take (i + 1) ++ l.drop (i + 1)).getLast? :=
        List.mem_getLast?_append_of_mem_getLast? hm
      rwa [List.take_append_drop] at h6
    have hx : l.getLast hne = (l.drop (i + 1)).getLast hD := by
      rw [List.getLast?_eq_getLast l hne] at hmem
      have h7 := Option.mem_some_iff.mp hmem
      first
      | exact h7
      | exact h7.symm
    rw [List.dropLast_eq_take, List.length_set]
    rw [List.drop_take]
    rw [List.set_eq_take_cons_drop _ h]
    rw [List.drop_left' (by simp [List.length_take]; omega)]
    have hlenD : (l.drop (i + 1)).length = l.length - i - 1 := by
      simp
      omega
    have htake :
        (l.getLast hne :: l.drop (i + 1)).take (l.length - 1 - i) =
          l.getLast hne :: (l.drop (i + 1)).dropLast := by
      have hamt : l.length - 1 - i - 1 = l.length - i - 1 - 1 := by omega
      rw [List.take_cons (by omega), List.dropLast_eq_take, hlenD, hamt]
    rw [htake, hx]
    have hperm : ((l.drop (i + 1)).getLast hD :: (l.drop (i + 1)).dropLast).Perm
        ((l.drop (i + 1)).dropLast ++ [(l.drop (i + 1)).getLast hD]) :=
      (List.perm_append_singleton _ _).symm
    rw [List.dropLast_append_getLast hD] at hperm
    exact hperm.symm.symm
  · -- `i` is the last position: swap_remove is just pop
    have hempty : l.drop (i + 1) = [] := List.drop_eq_nil_of_le (by omega)
    have hdrop : ((l.set i (l.getLast hne)).dropLast).drop i = [] :=
      List.drop_eq_nil_of_le (by simp; omega)
    rw [hdrop, hempty]

/-- The polling loop of `gather`: walk the live list with index `i`, poll the
collector at `i` — if it yields metrics, append them and advance; if the
backing metric is gone, `swap_remove` it and retry the same slot. -/
def gatherLoop (env : Nat → Option (List Metric)) (cs : List GCollector) (i : Nat)
    (acc : List Metric) : List Metric × List GCollector :=
  if h : i < cs.length then
    match env (cs.get ⟨i, h⟩).id with
    | some ms => gatherLoop env cs (i + 1) (acc ++ ms)
    | none => gatherLoop env (swapRemove cs i) i acc
  else (acc, cs)
termination_by cs.length - i
decreasing_by
  · omega
  · have hlen : (swapRemove cs i).length = cs.length - 1 :=
      swapRemove_length cs i (List.ne_nil_of_length_pos (by omega))
    omega

/-- The polling loop keeps every already-polled (surviving) collector and,
of the remaining ones, exactly those whose backing metric is alive — up to
the ordering disturbance of `swap_remove`; and it accumulates exactly the
live collectors' yielded metrics. -/
theorem gatherLoop_spec (env : Nat → Option (List Metric)) :
    ∀ (n : Nat) (cs : List GCollector) (i : Nat) (acc : List Metric),
      cs.length - i ≤ n →
      ((gatherLoop env cs i acc).2).Perm
        (cs.take i ++ (cs.drop i).filter (fun c => (env c.id).isSome)) ∧
      ((gatherLoop env cs i acc).1).Perm
        (acc ++ ((cs.drop i).filter (fun c => (env c.id).isSome)).flatMap
          (fun c => (env c.id).getD [])) := by
  intro n
  induction n with
  | zero =>
    intro cs i acc hn
    have hge : ¬ i < cs.length := by omega
    rw [gatherLoop, dif_neg hge]
    have hdrop : cs.drop i = [] := List.drop_eq_nil_of_le (by omega)
    have htake : cs.take i = cs := List.take_of_length_le (by omega)
    simp [hdrop, htake]
  | succ n ih =>
    intro cs i acc hn
    by_cases h : i < cs.length
    · cases henv : env (cs.get ⟨i, h⟩).id with
      | some ms =>
        rw [gatherLoop, dif_pos h, henv]
        obtain ⟨ih2, ih1⟩ := ih cs (i + 1) (acc ++ ms) (by omega)
        have hdropi : cs.drop i = cs.get ⟨i, h⟩ :: cs.drop (i + 1) := by
          rw [List.drop_eq_getElem_cons h]
          rfl
        have halive : (env (cs.get ⟨i, h⟩).id).isSome = true := by rw [henv]; rfl
        have hfilter : (cs.drop i).filter (fun c => (env c.id).isSome) =
            cs.get ⟨i, h⟩ :: (cs.drop (i + 1)).filter (fun c => (env c.id).isSome) := by
          rw [hdropi, List.filter_cons, if_pos halive]
        have htakei : cs.take (i + 1) = cs.take i ++ [cs.get ⟨i, h⟩] := by
          rw [List.take_succ, List.getElem?_eq_getElem h]
          rfl
        constructor
        · refine ih2.trans (List.Perm.of_eq ?_)
          rw [htakei, hfilter, List.append_assoc]
          rfl
        · refine ih1.trans (List.Perm.of_eq ?_)
          rw [hfilter, List.flatMap_cons, henv, List.append_assoc]
          rfl
      | none =>
        rw [gatherLoop, dif_pos h, henv]
        have hne : cs ≠ [] := List.ne_nil_of_length_pos (by omega)
        have hlen : (swapRemove cs i).length = cs.length - 1 := swapRemove_length cs i hne
        obtain ⟨ih2, ih1⟩ := ih (swapRemove cs i) i acc (by omega)
        have hdead : (env (cs.get ⟨i, h⟩).id).isSome = false := by rw [henv]; rfl
        have hdropi : cs.drop i = cs.get ⟨i, h⟩ :: cs.drop (i + 1) := by
          rw [List.drop_eq_getElem_cons h]
          rfl
        have hfilter : (cs.drop i).filter (fun c => (env c.id).isSome) =
            (cs.drop (i + 1)).filter (fun c => (env c.id).isSome) := by
          rw [hdropi, List.filter_cons, if_neg]
          simp only [List.get_eq_getElem] at henv
          simp [henv]
        have hfperm : ((swapRemove cs i).drop i).filter (fun c => (env c.id).isSome)
            |>.Perm ((cs.drop i).filter (fun c => (env c.id).isSome)) := by
          rw [hfilter]
          exact (swapRemove_drop_perm cs i h).filter _
        constructor
        · refine ih2.trans ?_
          rw [swapRemove_take cs i h]
          exact hfperm.append_left _
        · refine ih1.trans ?_
          exact (hfperm.flatMap_right _).append_left _
    · rw [gatherLoop, dif_neg h]
      have hdrop : cs.drop i = [] := List.drop_eq_nil_of_le (by omega)
      have htake : cs.take i = cs := List.take_of_length_le (by omega)
      simp [hdrop, htake]

/-- A well-formed family: non-empty, its name, kind and help text are the
first member's, and every member shares its `(name, kind)`. -/
def famWF (f : MetricFamily) : Prop :=
  ∃ m0 ms, f.metrics = m0 :: ms ∧ f.name = m0.name ∧ f.kind = m0.kind ∧ f.help = m0.help ∧
    ∀ m ∈ f.metrics, m.name = f.name ∧ m.kind = f.kind

/-- Adjacent families do not share a `(name, kind)` key. -/
def famNe (f g : MetricFamily) : Prop := ¬(f.name = g.name ∧ f.kind = g.kind)

theorem famsJoin_append (l : List MetricFamily) (f : MetricFamily) :
    famsJoin (l ++ [f]) = famsJoin l ++ f.metrics := by
  simp [famsJoin]

theorem addMetric_join (fams : List MetricFamily) (m : Metric) :
    famsJoin (addMetricToFamilies fams m) = famsJoin fams ++ [m] := by
  cases hl : fams.getLast? with
  | none =>
    have hred : addMetricToFamilies fams m = [MetricFamily.new m] := by
      unfold addMetricToFamilies
      rw [hl]
    have h0 : fams = [] := List.getLast?_eq_none_iff.mp hl
    subst h0
    rw [hred]
    simp [famsJoin, MetricFamily.new]
  | some f =>
    have hred : addMetricToFamilies fams m =
        if f.name = m.name ∧ f.kind = m.kind then fams.dropLast ++ [f.push m]
        else fams ++ [MetricFamily.new m] := by
      unfold addMetricToFamilies
      rw [hl]
    have hdecomp : fams.dropLast ++ [f] = fams :=
      List.dropLast_append_getLast? f hl
    rw [hred]
    by_cases hsame : f.name = m.name ∧ f.kind = m.kind
    · rw [if_pos hsame, famsJoin_append]
      conv_rhs => rw [← hdecomp, famsJoin_append]
      simp [MetricFamily.push]
    · rw [if_neg hsame, famsJoin_append]
      simp [MetricFamily.new]

theorem addMetric_wf (fams : List MetricFamily) (m : Metric)
    (h : ∀ f ∈ fams, famWF f) : ∀ f ∈ addMetricToFamilies fams m, famWF f := by
  have hnew : famWF (MetricFamily.new m) :=
    ⟨m, [], rfl, rfl, rfl, rfl, by simp [MetricFamily.new]⟩
  cases hl : fams.getLast? with
  | none =>
    have hred : addMetricToFamilies fams m = [MetricFamily.new m] := by
      unfold addMetricToFamilies
      rw [hl]
    rw [hred]
    intro f hf
    simp at hf
    subst hf
    exact hnew
  | some f0 =>
    have hred : addMetricToFamilies fams m =
        if f0.name = m.name ∧ f0.kind = m.kind then fams.dropLast ++ [f0.push m]
        else fams ++ [MetricFamily.new m] := by
      unfold addMetricToFamilies
      rw [hl]
    rw [hred]
    have hf0mem : f0 ∈ fams := List.mem_of_mem_getLast? (by rw [hl]; rfl)
    by_cases hsame : f0.name = m.name ∧ f0.kind = m.kind
    · rw [if_pos hsame]
      intro f hf
      rcases List.mem_append.mp hf with hdl | hlast
      · exact h f ((List.dropLast_sublist fams).subset hdl)
      · have hfeq : f = f0.push m := by simpa using hlast
        subst hfeq
        obtain ⟨m0, ms, hm, hn, hk, hh, hall⟩ := h f0 hf0mem
        refine ⟨m0, ms ++ [m], ?_, hn, hk, hh, ?_⟩
        · simp [MetricFamily.push, hm]
        · intro x hx
          simp only [MetricFamily.push] at hx ⊢
          rcases List.mem_append.mp hx with hx | hx
          · exact hall x hx
          · have hxm : x = m := by simpa using hx
            subst hxm
            exact ⟨hsame.1.symm, hsame.2.symm⟩
    · rw [if_neg hsame]
      intro f hf
      rcases List.mem_append.mp hf with hdl | hlast
      · exact h f hdl
      · have hfeq : f = MetricFamily.new m := by simpa using hlast
        subst hfeq
        exact hnew

theorem addMetric_chain (fams : List MetricFamily) (m : Metric)
    (hch : List.Chain' famNe fams) :
    List.Chain' famNe (addMetricToFamilies fams m) := by
  cases hl : fams.getLast? with
  | none =>
    have hred : addMetricToFamilies fams m = [MetricFamily.new m] := by
      unfold addMetricToFamilies
      rw [hl]
    rw [hred]
    exact List.chain'_singleton _
  | some f0 =>
    have hred : addMetricToFamilies fams m =
        if f0.name = m.name ∧ f0.kind = m.kind then fams.dropLast ++ [f0.push m]
        else fams ++ [MetricFamily.new m] := by
      unfold addMetricToFamilies
      rw [hl]
    rw [hred]
    have hdecomp : fams.dropLast ++ [f0] = fams :=
      List.dropLast_append_getLast? f0 hl
    by_cases hsame : f0.name = m.name ∧ f0.kind = m.kind
    · rw [if_pos hsame]
      rw [← hdecomp] at hch
      obtain ⟨hc1, _, hlast⟩ := List.chain'_append.mp hch
      refine List.chain'_append.mpr ⟨hc1, List.chain'_singleton _, ?_⟩
      intro x hx y hy
      have hyeq : y = f0.push m := by
        have h9 := hy
        simp only [List.head?_cons, Option.mem_def, Option.some.injEq] at h9
        exact h9.symm
      subst hyeq
      have := hlast x hx f0 rfl
      simpa [famNe, MetricFamily.push] using this
    · rw [if_neg hsame]
      refine List.chain'_append.mpr ⟨hch, List.chain'_singleton _, ?_⟩
      intro x hx y hy
      have hyeq : y = MetricFamily.new m := by
        have h9 := hy
        simp only [List.head?_cons, Option.mem_def, Option.some.injEq] at h9
        exact h9.symm
      subst hyeq
      have hxeq : x = f0 := by
        have h9 : x ∈ fams.getLast? := hx
        rw [hl] at h9
        have h10 := Option.mem_some_iff.mp h9
        first
        | exact h10
        | exact h10.symm
      subst hxeq
      simpa [famNe, MetricFamily.new] using hsame

theorem buildFamilies_go (ms : List Metric) :
    ∀ fams : List MetricFamily,
      (∀ f ∈ fams, famWF f) → List.Chain' famNe fams →
      famsJoin (ms.foldl addMetricToFamilies fams) = famsJoin fams ++ ms ∧
      (∀ f ∈ ms.foldl addMetricToFamilies fams, famWF f) ∧
      List.Chain' famNe (ms.foldl addMetricToFamilies fams) := by
  induction ms with
  | nil =>
    intro fams hwf hch
    exact ⟨by simp, hwf, hch⟩
  | cons m rest ih =>
    intro fams hwf hch
    obtain ⟨j, w, c⟩ := ih (addMetricToFamilies fams m)
      (addMetric_wf fams m hwf) (addMetric_chain fams m hch)
    refine ⟨?_, w, c⟩
    calc famsJoin ((m :: rest).foldl addMetricToFamilies fams)
        = famsJoin (rest.foldl addMetricToFamilies (addMetricToFamilies fams m)) := rfl
      _ = famsJoin (addMetricToFamilies fams m) ++ rest := j
      _ = (famsJoin fams ++ [m]) ++ rest := by rw [addMetric_join]
      _ = famsJoin fams ++ m :: rest := by rw [List.append_assoc]; rfl

/-- The state of a `Gatherer`: the channel of pending newly registered
collectors, and the live collector list. -/
structure GathererState where
  pending : List GCollector
  collectors : List GCollector
deriving DecidableEq

/-- The `Gatherer::gather`: drain the channel into the live list, poll every
collector once (dropping dead ones via `swap_remove`), sort the accumulated
metrics by `(name, kind)`, and fold adjacent equal-key runs into families.
The returned state has an empty channel and the surviving live list. -/
def Gatherer.gather (env : Nat → Option (List Metric)) (st : GathererState) :
    List MetricFamily × GathererState :=
  let r := gatherLoop env (st.collectors ++ st.pending) 0 []
  (buildFamilies (List.insertionSort metricLe r.1), ⟨[], r.2⟩)

/-- Claim C5: `gather` (1) drains all pending collectors from the channel
(the post-state channel is empty and the pending collectors were polled with
the live ones); (2) polls each live collector once, accumulating exactly the
metrics yielded by the collectors whose backing metric is alive, and drops
from the live list every collector that yields nothing — a dropped collector
is absent from the post-state live list, so it contributes nothing to this
snapshot (its yield is empty) nor to any later `gather` on the same gatherer;
(3) the metrics of the returned families, concatenated in order, are sorted
by `(name, kind)`; (4) adjacent runs with equal `(name, kind)` are folded
into single families — every family is non-empty, all its members share its
`(name, kind)`, its help text is its first member's, and no two adjacent
families share a key. -/
theorem gatherer_gather_spec (env : Nat → Option (List Metric)) (st : GathererState) :
    (Gatherer.gather env st).2.pending = [] ∧
    ((Gatherer.gather env st).2.collectors).Perm
      ((st.collectors ++ st.pending).filter (fun c => (env c.id).isSome)) ∧
    (∀ c ∈ st.collectors ++ st.pending, env c.id = none →
      c ∉ (Gatherer.gather env st).2.collectors) ∧
    (famsJoin (Gatherer.gather env st).1).Perm
      (((st.collectors ++ st.pending).filter (fun c => (env c.id).isSome)).flatMap
        (fun c => (env c.id).getD [])) ∧
    List.Sorted metricLe (famsJoin (Gatherer.gather env st).1) ∧
    (∀ f ∈ (Gatherer.gather env st).1, famWF f) ∧
    List.Chain' famNe (Gatherer.gather env st).1 := by
  obtain ⟨h2, h1⟩ := gatherLoop_spec env (st.collectors ++ st.pending).length
    (st.collectors ++ st.pending) 0 [] (by omega)
  simp only [List.take_zero, List.drop_zero, List.nil_append] at h2 h1
  obtain ⟨hj, hw, hc⟩ := buildFamilies_go
    (List.insertionSort metricLe (gatherLoop env (st.collectors ++ st.pending) 0 []).1)
    [] (by simp) (by simp)
  have hjoin : famsJoin (Gatherer.gather env st).1 =
      List.insertionSort metricLe
        (gatherLoop env (st.collectors ++ st.pending) 0 []).1 := by
    show famsJoin (buildFamilies _) = _
    unfold buildFamilies
    rw [hj]
    simp [famsJoin]
  refine ⟨rfl, h2, ?_, ?_, ?_, hw, hc⟩
  · intro c _ hdead hmem
    have hmem' := h2.mem_iff.mp hmem
    have hs := List.of_mem_filter hmem'
    rw [hdead] at hs
    simp at hs
  · rw [hjoin]
    exact (List.perm_insertionSort metricLe _).trans h1
  · rw [hjoin]
    exact List.sorted_insertionSort metricLe _

end Prometrics
